import Mathlib

/-!
Verification of the function-inversion and interval-algebra engine of the
alpaca repository (src/python/alpaca).  All numeric values are modelled as
rationals: the Python code performs only comparisons, min/max selections and
copies of its inputs in the fragments verified here, so the embedding over an
exact ordered field is faithful.
-/

namespace Alpaca

/-! ### Interval intersections (interval_intersections.py) -/

/-- Translation of np.sort applied to a two-element array: the pair sorted
ascending. -/
def sortPair (p : ℚ × ℚ) : ℚ × ℚ := (min p.1 p.2, max p.1 p.2)

/-- Branch structure of intersection_of_two_intervals
(interval_intersections.py, lines 64-77) after both inputs have been sorted:
a1 ≤ a2 and b1 ≤ b2 are the sorted limits of the two intervals.  The Python
function returns a plain list that is either empty or has two elements. -/
def intersectionSortedCase (a1 a2 b1 b2 : ℚ) : List ℚ :=
  if a1 > b2 then []
  else if a1 ≥ b1 ∧ a1 ≤ b2 then
    if a2 ≤ b2 then [a1, a2] else [a1, b2]
  else if a2 ≥ b1 then
    if a2 ≤ b2 then [b1, a2] else [b1, b2]
  else []

/-- Translation of intersection_of_two_intervals (interval_intersections.py,
lines 21-77; the copy in analyzing_power.py lines 26-82 is identical): both
input pairs are sorted with np.sort, then the branch cascade runs on the
sorted limits. -/
def intersection_of_two_intervals (i1 i2 : ℚ × ℚ) : List ℚ :=
  intersectionSortedCase (sortPair i1).1 (sortPair i1).2 (sortPair i2).1 (sortPair i2).2

/-- Translation of intersection_of_interval_with_list_of_intervals
(interval_intersections.py, lines 80-111): intersect interval_1 with every
member of the list, keeping the non-empty results in order. -/
def intersection_of_interval_with_list_of_intervals
    (i1 : ℚ × ℚ) (L : List (ℚ × ℚ)) : List (List ℚ) :=
  L.foldl
    (fun acc itv =>
      let r := intersection_of_two_intervals i1 itv
      if r.length > 0 then acc ++ [r] else acc)
    []

/-- Translation of intersection (interval_intersections.py, lines 114-148):
for every interval of the first list, append all non-empty intersections with
the second list. -/
def intersection (L1 L2 : List (ℚ × ℚ)) : List (List ℚ) :=
  L1.foldl
    (fun acc i1 =>
      let r := intersection_of_interval_with_list_of_intervals i1 L2
      if r.length > 0 then acc ++ r else acc)
    []

/-! ### Grid inversion (inversion_by_grid_evaluation.py) -/

/-- Target of an inversion query: the Python argument y may be a scalar or a
two-element range. -/
inductive Target where
  | scalar (v : ℚ)
  | range (y0 y1 : ℚ)
deriving DecidableEq

/-- Normalization of the target performed by invert_grid (lines 80-83): a
scalar v becomes the pair [v, v], and a reversed range is sorted. -/
def normalizeTarget : Target → ℚ × ℚ
  | Target.scalar v => (v, v)
  | Target.range y0 y1 => if y1 < y0 then (y1, y0) else (y0, y1)

/-- Elementwise boolean mask (inversion_by_grid_evaluation.py line 84):
inequality = (fx >= y[0] - atol) * (fx <= y[1] + atol). -/
def gridMask (fx : List ℚ) (lo hi atol : ℚ) : List Bool :=
  fx.map (fun v => decide (lo - atol ≤ v) && decide (v ≤ hi + atol))

/-- Translation of np.extract(condition, x): the elements of x at the
positions where the condition mask holds, in order. -/
def extract (mask : List Bool) (x : List ℚ) : List ℚ :=
  (x.zip mask).filterMap (fun p => if p.2 then some p.1 else none)

/-- Generic translation of the interval-coalescing loop that appears, with
identical control flow, in invert_grid (inversion_by_grid_evaluation.py lines
88-98) and in find_delta_brute_force (analyzing_power.py lines 432-442 and
find_delta.py lines 94-104): iterate i from 0 while i < n over the mask;
when a run of True entries begins at i remember the value startf i; when the
run is interrupted by a False entry at i emit the interval closed with
closef i; when the loop reaches the last index i = n - 1 with a run still
open emit the interval closed with finalv.  The call sites differ only in
the three value parameters (invert_grid closes interior runs with x[i - 1],
find_delta_brute_force with deltas[i]).  The fuel argument makes the
recursion structural; any fuel at least n - i reproduces the loop. -/
def runScan (startf closef : ℕ → ℚ) (finalv : ℚ) (mask : List Bool) (n : ℕ) :
    ℕ → ℕ → Option ℚ → List (ℚ × ℚ)
  | 0, _, _ => []
  | fuel + 1, i, start =>
    if i < n then
      let matching := mask.getD i false
      match start with
      | none =>
        if matching then
          if i = n - 1 then
            (startf i, finalv) :: runScan startf closef finalv mask n fuel (i + 1) (some (startf i))
          else
            runScan startf closef finalv mask n fuel (i + 1) (some (startf i))
        else
          runScan startf closef finalv mask n fuel (i + 1) none
      | some st =>
        if matching then
          if i = n - 1 then
            (st, finalv) :: runScan startf closef finalv mask n fuel (i + 1) (some st)
          else
            runScan startf closef finalv mask n fuel (i + 1) (some st)
        else
          (st, closef i) :: runScan startf closef finalv mask n fuel (i + 1) none
    else []

/-- Translation of invert_grid (inversion_by_grid_evaluation.py lines 21-100).
The shape check reduces, for one-dimensional list inputs, to the length
comparison; scalar targets are widened to a degenerate range and reversed
ranges are sorted; the mask is computed with inclusive tolerance-band
comparisons; the result is either the matching x values or the coalesced
intervals. -/
def invert_grid (x fx : List ℚ) (y : Target) (atol : ℚ) (return_intervals : Bool) :
    Except String (List ℚ ⊕ List (ℚ × ℚ)) :=
  let n_x := x.length
  if fx.length ≠ n_x then
    Except.error "Both x and fx must be (N,1) arrays [np.shape(x) == (N,)]."
  else
    let yr := normalizeTarget y
    let inequality := gridMask fx yr.1 yr.2 atol
    if return_intervals then
      Except.ok (Sum.inr (runScan (fun i => x.getD i 0) (fun i => x.getD (i - 1) 0)
        (x.getD (n_x - 1) 0) inequality n_x n_x 0 none))
    else
      Except.ok (Sum.inl (extract inequality x))

/-- Length of the run of consecutive True mask entries starting at index s;
written from the specification of the coalescing step. -/
def runLength (mask : List Bool) (s : ℕ) : ℕ :=
  ((mask.drop s).takeWhile (fun b => b)).length

/-- Whether a maximal run of True entries starts at index s: the entry is
True and it is either the first entry or preceded by a False entry. -/
def isRunStart (mask : List Bool) (s : ℕ) : Bool :=
  mask.getD s false && (decide (s = 0) || !(mask.getD (s - 1) false))

/-- Maximal runs of consecutive True entries whose start index is at least i,
as (start index, end index) pairs in increasing order of start index. -/
def runsFrom (mask : List Bool) (i : ℕ) : List (ℕ × ℕ) :=
  (List.range' i (mask.length - i)).filterMap
    (fun s => if isRunStart mask s then some (s, s + runLength mask s - 1) else none)

/-- Maximal runs of consecutive True entries of a mask, as
(start index, end index) pairs in increasing order; this is the
specification-side description of the coalescing step. -/
def maximalRuns (mask : List Bool) : List (ℕ × ℕ) := runsFrom mask 0

/-! ### Brute-force mixing-ratio search (analyzing_power.py lines 278-444,
duplicated in find_delta.py lines 26-106)

For each sampled mixing ratio delta, the source resolves the substitution
slots of delta_values (a fixed value, the scanned variable, or a callable of
it), rebuilds the cascade, and evaluates the analyzing power at theta.  That
evaluation chain is the external physical model of the engine; it is
abstracted below as an opaque function ev from the sampled parameter to the
observable.  The grid deltas = tan(linspace(-arctan(M), arctan(M), n_delta))
has exactly n_delta entries; its entries are transcendental, and the matching
and coalescing behaviour is independent of their values, so the grid is a
parameter of the embedding and n_delta is its length. -/

/-- Matching test applied to each sample by find_delta_brute_force
(analyzing_power.py lines 422-429): a scalar asymmetry matches when
|A - y| < atol (strict comparison), an interval asymmetry when
y0 - atol ≤ A ≤ y1 + atol (inclusive, limits in the given order). -/
def deltaMatch (ev : ℚ → ℚ) (asymmetry : Target) (atol : ℚ) (d : ℚ) : Bool :=
  match asymmetry with
  | Target.scalar v => decide (|ev d - v| < atol)
  | Target.range y0 y1 => decide (y0 - atol ≤ ev d) && decide (ev d ≤ y1 + atol)

/-- Sampling loop of find_delta_brute_force (analyzing_power.py lines
370-429): delta_results starts empty and delta_matches starts as n_delta
copies of False; every matching sample is appended to delta_results and
flagged in delta_matches. -/
def findDeltaLoop (ev : ℚ → ℚ) (asymmetry : Target) (atol : ℚ) (deltas : List ℚ) :
    List ℚ × List Bool :=
  (List.range deltas.length).foldl
    (fun s i =>
      let d := deltas.getD i 0
      if deltaMatch ev asymmetry atol d then (s.1 ++ [d], s.2.set i true) else s)
    ([], List.replicate deltas.length false)

/-- Translation of find_delta_brute_force (analyzing_power.py lines 278-444):
run the sampling loop; with return_intervals the match mask is coalesced by
the loop of lines 431-442, whose interior-run closure uses deltas[i] (the
first non-matching sample) and whose final-index closure uses deltas[-1];
otherwise return the pair (delta_results, delta_matches). -/
def find_delta_brute_force (ev : ℚ → ℚ) (asymmetry : Target) (atol : ℚ)
    (deltas : List ℚ) (return_intervals : Bool) :
    (List ℚ × List Bool) ⊕ List (ℚ × ℚ) :=
  let res := findDeltaLoop ev asymmetry atol deltas
  let n_delta := deltas.length
  if return_intervals then
    Sum.inr (runScan (fun i => deltas.getD i 0) (fun i => deltas.getD i 0)
      (deltas.getD (n_delta - 1) 0) res.2 n_delta n_delta 0 none)
  else
    Sum.inl res


/-! ### Local extrema of a sampled sequence
(inversion_by_piecewise_interpolation.py lines 24-92) -/

/-- Translation of the scanning loop of find_indices_of_extrema
(inversion_by_piecewise_interpolation.py lines 74-92).  The three rolling
pointers last, cur, nxt correspond to the Python variables last, this, next;
the loop runs while next < len(y): equal neighbours y[this] == y[next] only
advance next, otherwise the candidate this is recorded when y[this] is
strictly greater than both y[last] and y[next] or strictly less than both,
and the pointers roll forward.  The fuel argument makes the recursion
structural; any fuel at least len(y) - next reproduces the loop. -/
def extremaAux (y : List ℚ) : ℕ → ℕ → ℕ → ℕ → List ℕ
  | 0, _, _, _ => []
  | fuel + 1, last, cur, nxt =>
    if nxt < y.length then
      if y.getD cur 0 = y.getD nxt 0 then
        extremaAux y fuel last cur (nxt + 1)
      else
        let rest := extremaAux y fuel cur nxt (nxt + 1)
        if (y.getD cur 0 > y.getD last 0 ∧ y.getD cur 0 > y.getD nxt 0)
            ∨ (y.getD cur 0 < y.getD last 0 ∧ y.getD cur 0 < y.getD nxt 0) then
          cur :: rest
        else rest
    else []

/-- Translation of find_indices_of_extrema
(inversion_by_piecewise_interpolation.py lines 24-92): the loop starts with
last = 0, this = 1, next = 2. -/
def find_indices_of_extrema (y : List ℚ) : List ℕ :=
  extremaAux y y.length 0 1 2

/-- Index of the nearest value before i that differs from y[i]; written from
the specification of the extrema rule. -/
def prevDiff (y : List ℚ) (i : ℕ) : Option ℕ :=
  (List.range i).reverse.find? (fun j => decide (y.getD j 0 ≠ y.getD i 0))

/-- Index of the nearest value after i that differs from y[i]; written from
the specification of the extrema rule. -/
def nextDiff (y : List ℚ) (i : ℕ) : Option ℕ :=
  (List.range' (i + 1) (y.length - (i + 1))).find?
    (fun j => decide (y.getD j 0 ≠ y.getD i 0))

/-- Specification of a local extremum at index i: y[i] is strictly greater
than both the nearest differing value before it and the nearest differing
value after it, or strictly less than both; when no differing value exists on
one of the two sides there is no extremum. -/
def isExtremum (y : List ℚ) (i : ℕ) : Bool :=
  match prevDiff y i, nextDiff y i with
  | some p, some q =>
      decide ((y.getD i 0 > y.getD p 0 ∧ y.getD i 0 > y.getD q 0)
        ∨ (y.getD i 0 < y.getD p 0 ∧ y.getD i 0 < y.getD q 0))
  | _, _ => false

/-- Whether i is the first index of its plateau of equal consecutive values;
the scan reports one index per plateau, namely this one. -/
def isFirstOfPlateau (y : List ℚ) (i : ℕ) : Bool :=
  decide (i = 0 ∨ y.getD (i - 1) 0 ≠ y.getD i 0)

/-- Predicate satisfied exactly by the reported extremum indices. -/
def extremaPred (y : List ℚ) (i : ℕ) : Bool :=
  isFirstOfPlateau y i && isExtremum y i

/-- Specification-side list of extrema indices, in increasing order. -/
def extremaSpec (y : List ℚ) : List ℕ :=
  (List.range y.length).filter (extremaPred y)


/-! ### Piecewise interpolation of the inverse
(inversion_by_piecewise_interpolation.py lines 95-246) -/

/-- Interpolation kinds relevant to the verified behaviour: the mandated
linear fallback and the default higher-order cubic request. -/
inductive InterpKind where
  | linear
  | cubic
deriving DecidableEq

/-- Minimum number of data points each interpolation kind requires: a cubic
spline needs 4 points, any interpolation needs at least 2. -/
def minPoints : InterpKind → ℕ
  | InterpKind.linear => 2
  | InterpKind.cubic => 4

/-- An interpolator object as returned by scipy.interpolate.interp1d,
recorded by its construction data; its numeric behaviour is opaque to the
inversion engine. -/
structure Interp1d where
  kind : InterpKind
  xs : List ℚ
  ys : List ℚ
deriving DecidableEq

/-- Modelled from the spec: scipy.interpolate.interp1d is an external
collaborator that is absent from the repository.  Per the repository's own
documentation of it (safe_interp1d docstring, lines 96-102: cubic
interpolation of fewer than 4 points is not possible, and fewer than two
points throws the usual interp1d error), construction raises a ValueError
when the data has fewer points than the requested kind needs. -/
def interp1d (x y : List ℚ) (kind : InterpKind) : Except String Interp1d :=
  if x.length < minPoints kind then
    Except.error "x and y arrays must have enough entries for this kind of interpolation."
  else
    Except.ok ⟨kind, x, y⟩

/-- Translation of safe_interp1d (lines 95-126): fewer than 4 points emits a
UserWarning and falls back to kind linear; otherwise the requested kind is
passed through.  Emitted warnings are collected in the first component. -/
def safe_interp1d (x y : List ℚ) (kind : InterpKind) :
    List String × Except String Interp1d :=
  if x.length < 4 then
    (["Interpolation of less than 4 points requested. Falling back to linear interpolation."],
      interp1d x y InterpKind.linear)
  else
    ([], interp1d x y kind)

/-- Sequencing of the per-segment safe_interp1d calls of
interpolate_and_invert (lines 174-191): interpolators are built in order,
warnings accumulate, and a raised error aborts construction.  Each pair holds
the y slice and the x slice of one segment (the interpolation maps y to x, so
the y slice is the interpolator input). -/
def buildSegments (kind : InterpKind) :
    List (List ℚ × List ℚ) → List String × Except String (List Interp1d)
  | [] => ([], Except.ok [])
  | seg :: rest =>
    let w := safe_interp1d seg.1 seg.2 kind
    match w.2 with
    | Except.error e => (w.1, Except.error e)
    | Except.ok f =>
      let r := buildSegments kind rest
      (w.1 ++ r.1, r.2.map (fun fs => f :: fs))

/-- The per-segment slices built by interpolate_and_invert (lines 174-191)
when the extrema list is e0 :: tl: the first segment is l[0 : e0 + 1], the
middle ones l[extrema[i-1] : extrema[i] + 1], and the last
l[extrema[-1] :]. -/
def segmentSlices (l : List ℚ) (e0 : ℕ) (tl : List ℕ) : List (List ℚ) :=
  (l.take (e0 + 1)) ::
    (((e0 :: tl).zip tl).map (fun p => (l.drop p.1).take (p.2 - p.1 + 1))
      ++ [l.drop ((e0 :: tl).getLast (List.cons_ne_nil e0 tl))])

/-- Translation of interpolate_and_invert (lines 129-193): shape check, then
extrema search on y; with no extrema a single interpolator is built directly
with the requested kind (line 167), otherwise one safe_interp1d per segment.
The emitted warnings are returned alongside the result. -/
def interpolate_and_invert (x y : List ℚ) (kind : InterpKind) :
    List String × Except String (List Interp1d) :=
  if y.length ≠ x.length then
    ([], Except.error "Both x and y must be (N,1) arrays [np.shape(x) == (N,)].")
  else
    match find_indices_of_extrema y with
    | [] => ([], (interp1d y x kind).map (fun f => [f]))
    | e0 :: tl =>
      buildSegments kind ((segmentSlices y e0 tl).zip (segmentSlices x e0 tl))

/-- A piecewise interpolation stores a list of fallible single-argument
callables, as described in the class docstring (lines 196-224). -/
structure PiecewiseInterpolation where
  interpolations : List (ℚ → Except String ℚ)

/-- Translation of PiecewiseInterpolation.call, the __call__ method
(lines 226-246): try every interpolation on the input; a ValueError (here an
error value) is caught and the offending piece contributes nothing. -/
def PiecewiseInterpolation.call (p : PiecewiseInterpolation) (x : ℚ) : List ℚ :=
  p.interpolations.foldl
    (fun acc inter =>
      match inter x with
      | Except.ok v => acc ++ [v]
      | Except.error _ => acc)
    []

/-- Modelled from the spec: a scipy interpolator built with bounds_error=True
raises a ValueError when queried outside the observed input range of its
data and otherwise returns the interpolated value; g stands for the opaque
numeric interpolant of one monotonic segment whose observed input range is
[lo, hi]. -/
def boundedInterp (lo hi : ℚ) (g : ℚ → ℚ) : ℚ → Except String ℚ :=
  fun v =>
    if lo ≤ v ∧ v ≤ hi then Except.ok (g v)
    else Except.error "A value in x_new is below or above the interpolation range."

end Alpaca

namespace Alpaca

theorem intersectionSortedCase_eq (a1 a2 b1 b2 : ℚ) (ha : a1 ≤ a2) (hb : b1 ≤ b2) :
    intersectionSortedCase a1 a2 b1 b2 =
      if min a2 b2 < max a1 b1 then [] else [max a1 b1, min a2 b2] := by
  unfold intersectionSortedCase
  by_cases h1 : a1 > b2
  · rw [if_pos h1,
      if_pos (lt_of_le_of_lt (min_le_right a2 b2) (lt_of_lt_of_le h1 (le_max_left a1 b1)))]
  · rw [if_neg h1]
    by_cases h2 : a1 ≥ b1 ∧ a1 ≤ b2
    · rw [if_pos h2]
      by_cases h3 : a2 ≤ b2
      · rw [if_pos h3, max_eq_left h2.1, min_eq_left h3, if_neg (not_lt.mpr ha)]
      · rw [if_neg h3, max_eq_left h2.1, min_eq_right (le_of_not_le h3),
          if_neg (not_lt.mpr h2.2)]
    · rw [if_neg h2]
      have hba : a1 ≤ b1 := by
        rcases not_and_or.mp h2 with hh | hh
        · exact le_of_lt (lt_of_not_le hh)
        · exact absurd (not_lt.mp h1) hh
      by_cases h4 : a2 ≥ b1
      · rw [if_pos h4]
        by_cases h5 : a2 ≤ b2
        · rw [if_pos h5, max_eq_right hba, min_eq_left h5, if_neg (not_lt.mpr h4)]
        · rw [if_neg h5, max_eq_right hba, min_eq_right (le_of_not_le h5),
            if_neg (not_lt.mpr hb)]
      · rw [if_neg h4,
          if_pos (lt_of_le_of_lt (min_le_left a2 b2)
            (lt_of_lt_of_le (lt_of_not_le h4) (le_max_right a1 b1)))]

theorem intersection_pair_eq (i1 i2 : ℚ × ℚ) :
    intersection_of_two_intervals i1 i2 =
      if min (max i1.1 i1.2) (max i2.1 i2.2) < max (min i1.1 i1.2) (min i2.1 i2.2)
      then []
      else [max (min i1.1 i1.2) (min i2.1 i2.2), min (max i1.1 i1.2) (max i2.1 i2.2)] :=
  intersectionSortedCase_eq _ _ _ _ min_le_max min_le_max

theorem intersection_pair_self (p : ℚ × ℚ) (hp : p.1 ≤ p.2) :
    intersection_of_two_intervals p p = [p.1, p.2] := by
  rw [intersection_pair_eq, min_eq_left hp, max_eq_right hp, min_self, max_self,
    if_neg (not_lt.mpr hp)]

theorem intersection_pair_disjoint (p q : ℚ × ℚ) (hp : p.1 ≤ p.2) (hq : q.1 ≤ q.2)
    (h : p.2 < q.1 ∨ q.2 < p.1) :
    intersection_of_two_intervals p q = [] := by
  rw [intersection_pair_eq, min_eq_left hp, max_eq_right hp, min_eq_left hq, max_eq_right hq,
    if_pos]
  rcases h with h | h
  · exact lt_of_le_of_lt (min_le_left p.2 q.2) (lt_of_lt_of_le h (le_max_right p.1 q.1))
  · exact lt_of_le_of_lt (min_le_right p.2 q.2) (lt_of_lt_of_le h (le_max_left p.1 q.1))

theorem foldl_step_flatten {α β : Type} (g : α → List β) (step : List β → α → List β)
    (hstep : ∀ acc x, step acc x = acc ++ g x) :
    ∀ (l : List α) (acc : List β), l.foldl step acc = acc ++ (l.map g).flatten := by
  intro l
  induction l with
  | nil => intro acc; simp
  | cons a l ih =>
    intro acc
    rw [List.foldl_cons, hstep, ih, List.map_cons, List.flatten_cons, List.append_assoc]

theorem iil_eq_flatten (i1 : ℚ × ℚ) (L : List (ℚ × ℚ)) :
    intersection_of_interval_with_list_of_intervals i1 L =
      (L.map (fun itv =>
        if (intersection_of_two_intervals i1 itv).length > 0
        then [intersection_of_two_intervals i1 itv] else [])).flatten := by
  have hstep : ∀ (acc : List (List ℚ)) (x : ℚ × ℚ),
      (fun acc itv =>
        let r := intersection_of_two_intervals i1 itv
        if r.length > 0 then acc ++ [r] else acc) acc x =
      acc ++ (if (intersection_of_two_intervals i1 x).length > 0
              then [intersection_of_two_intervals i1 x] else []) := by
    intro acc x
    by_cases h : (intersection_of_two_intervals i1 x).length > 0 <;> simp [h]
  unfold intersection_of_interval_with_list_of_intervals
  rw [foldl_step_flatten _ _ hstep L [], List.nil_append]

theorem intersection_eq_flatten (L1 L2 : List (ℚ × ℚ)) :
    intersection L1 L2 =
      (L1.map (fun i1 => intersection_of_interval_with_list_of_intervals i1 L2)).flatten := by
  have hstep : ∀ (acc : List (List ℚ)) (x : ℚ × ℚ),
      (fun acc i1 =>
        let r := intersection_of_interval_with_list_of_intervals i1 L2
        if r.length > 0 then acc ++ r else acc) acc x =
      acc ++ intersection_of_interval_with_list_of_intervals x L2 := by
    intro acc x
    by_cases h : (intersection_of_interval_with_list_of_intervals x L2).length > 0
    · simp [h]
    · have : intersection_of_interval_with_list_of_intervals x L2 = [] :=
        List.length_eq_zero.mp (Nat.eq_zero_of_not_pos h)
      simp [h, this]
  unfold intersection
  rw [foldl_step_flatten _ _ hstep L1 [], List.nil_append]

theorem flatten_of_all_nil {β : Type} (l : List (List β)) (h : ∀ x ∈ l, x = []) :
    l.flatten = [] := by
  induction l with
  | nil => rfl
  | cons a l ih =>
    rw [List.flatten_cons, h a (List.mem_cons_self a l),
      ih (fun x hx => h x (List.mem_cons_of_mem a hx)), List.nil_append]

/-- Abbreviation for the disjointness relation on sorted intervals used by the
self-intersection theorem: the two closed intervals neither overlap nor
touch. -/
def stronglyDisjoint (p q : ℚ × ℚ) : Prop := p.2 < q.1 ∨ q.2 < p.1

theorem iil_self_of_mem (L : List (ℚ × ℚ)) (hs : ∀ p ∈ L, p.1 ≤ p.2)
    (hd : L.Pairwise stronglyDisjoint) (a : ℚ × ℚ) (ha : a ∈ L) :
    intersection_of_interval_with_list_of_intervals a L = [[a.1, a.2]] := by
  obtain ⟨s, t, rfl⟩ := List.append_of_mem ha
  have hsplit := List.pairwise_append.mp hd
  have hat : ∀ y ∈ t, stronglyDisjoint a y :=
    fun y hy => (List.pairwise_cons.mp hsplit.2.1).1 y hy
  have hsa : ∀ x ∈ s, stronglyDisjoint x a :=
    fun x hx => hsplit.2.2 x hx a (List.mem_cons_self a t)
  have hsorted_a : a.1 ≤ a.2 := hs a ha
  rw [iil_eq_flatten]
  rw [List.map_append, List.map_cons, List.flatten_append, List.flatten_cons]
  have hzero_s : ((s.map (fun itv =>
      if (intersection_of_two_intervals a itv).length > 0
      then [intersection_of_two_intervals a itv] else [])).flatten : List (List ℚ)) = [] := by
    apply flatten_of_all_nil
    intro x hx
    rw [List.mem_map] at hx
    obtain ⟨itv, hitv, rfl⟩ := hx
    have hdisj : intersection_of_two_intervals a itv = [] := by
      apply intersection_pair_disjoint a itv hsorted_a
        (hs itv (List.mem_append_left _ hitv))
      · rcases hsa itv hitv with h | h
        · exact Or.inr h
        · exact Or.inl h
    simp [hdisj]
  have hzero_t : ((t.map (fun itv =>
      if (intersection_of_two_intervals a itv).length > 0
      then [intersection_of_two_intervals a itv] else [])).flatten : List (List ℚ)) = [] := by
    apply flatten_of_all_nil
    intro x hx
    rw [List.mem_map] at hx
    obtain ⟨itv, hitv, rfl⟩ := hx
    have hdisj : intersection_of_two_intervals a itv = [] := by
      apply intersection_pair_disjoint a itv hsorted_a
        (hs itv (List.mem_append_right _ (List.mem_cons_of_mem a hitv)))
      exact hat itv hitv
    simp [hdisj]
  rw [hzero_s, hzero_t, intersection_pair_self a hsorted_a]
  simp

theorem flatten_map_singleton {α β : Type} (l : List α) (f : α → β) :
    (l.map (fun a => [f a])).flatten = l.map f := by
  induction l with
  | nil => rfl
  | cons a l ih => simp [ih]

/-- C8: intersecting a well-formed list of sorted, pairwise strongly disjoint
(non-touching) intervals with itself reproduces the input list, in order.
Intervals are pairs in the embedding; the Python two-element lists appear on
the right-hand side via the map p to [p.1, p.2]. -/
theorem intersection_self_eq (L : List (ℚ × ℚ)) (hs : ∀ p ∈ L, p.1 ≤ p.2)
    (hd : L.Pairwise stronglyDisjoint) :
    intersection L L = L.map (fun p => [p.1, p.2]) := by
  rw [intersection_eq_flatten]
  have hcongr : L.map (fun i1 => intersection_of_interval_with_list_of_intervals i1 L) =
      L.map (fun i1 => [[i1.1, i1.2]]) :=
    List.map_congr_left (fun a ha => iil_self_of_mem L hs hd a ha)
  rw [hcongr, flatten_map_singleton]

/-- Witness for C8 at a concrete well-formed list. -/
theorem intersection_self_eq_witness :
    intersection [((0 : ℚ), 1), (2, 3)] [((0 : ℚ), 1), (2, 3)] = [[0, 1], [2, 3]] := by
  have h := intersection_self_eq [((0 : ℚ), 1), (2, 3)]
    (by
      intro p hp
      simp only [List.mem_cons, List.not_mem_nil, or_false] at hp
      rcases hp with rfl | rfl <;> norm_num)
    (by
      constructor
      · intro q hq
        simp only [List.mem_cons, List.not_mem_nil, or_false] at hq
        subst hq
        left
        norm_num
      · simp [stronglyDisjoint])
  simpa using h

theorem runLength_stopped (mask : List Bool) :
    ∀ (d s : ℕ), s + d ≤ mask.length →
      (∀ j, s ≤ j → j < s + d → mask.getD j false = true) →
      (s + d = mask.length ∨ mask.getD (s + d) false = false) →
      runLength mask s = d := by
  intro d
  induction d with
  | zero =>
    intro s hle htrue hstop
    simp only [Nat.add_zero] at hle htrue hstop
    rcases hstop with hstop | hstop
    · unfold runLength
      rw [List.drop_eq_nil_of_le (le_of_eq hstop.symm)]
      rfl
    · unfold runLength
      rcases lt_or_ge s mask.length with hlt | hge
      · have hval : mask[s] = false := by
          rw [← List.getD_eq_getElem mask false hlt]
          exact hstop
        rw [List.drop_eq_getElem_cons hlt, List.takeWhile_cons, hval]
        rfl
      · rw [List.drop_eq_nil_of_le hge]
        rfl
  | succ d ih =>
    intro s hle htrue hstop
    have hs : s < mask.length := by omega
    have hms : mask[s] = true := by
      rw [← List.getD_eq_getElem mask false hs]
      exact htrue s le_rfl (by omega)
    have htail : runLength mask (s + 1) = d := by
      apply ih (s + 1) (by omega)
      · intro j hj1 hj2
        exact htrue j (by omega) (by omega)
      · rcases hstop with h | h
        · left; omega
        · right
          have heq : s + 1 + d = s + (d + 1) := by omega
          rw [heq]
          exact h
    unfold runLength at htail ⊢
    have hcons : List.takeWhile (fun b => b) (true :: List.drop (s + 1) mask) =
        true :: List.takeWhile (fun b => b) (List.drop (s + 1) mask) := by
      simp
    rw [List.drop_eq_getElem_cons hs, hms, hcons]
    simp only [List.length_cons]
    omega

theorem runLength_pos (mask : List Bool) (s : ℕ) (h : mask.getD s false = true)
    (hs : s < mask.length) : 1 ≤ runLength mask s := by
  unfold runLength
  have hval : mask[s] = true := by
    rw [← List.getD_eq_getElem mask false hs]
    exact h
  have hcons : List.takeWhile (fun b => b) (true :: List.drop (s + 1) mask) =
      true :: List.takeWhile (fun b => b) (List.drop (s + 1) mask) := by
    simp
  rw [List.drop_eq_getElem_cons hs, hval, hcons]
  simp

theorem runsFrom_of_ge (mask : List Bool) (i : ℕ) (h : mask.length ≤ i) :
    runsFrom mask i = [] := by
  unfold runsFrom
  rw [Nat.sub_eq_zero_of_le h]
  rfl

theorem runsFrom_succ (mask : List Bool) (i : ℕ) (h : i < mask.length) :
    runsFrom mask i =
      (if isRunStart mask i then [(i, i + runLength mask i - 1)] else [])
        ++ runsFrom mask (i + 1) := by
  unfold runsFrom
  have hlen : mask.length - i = (mask.length - (i + 1)) + 1 := by omega
  rw [hlen, List.range'_succ, List.filterMap_cons]
  by_cases hstart : isRunStart mask i <;> simp [hstart]

theorem runScan_halt (startf closef : ℕ → ℚ) (finalv : ℚ) (mask : List Bool)
    (n fuel i : ℕ) (start : Option ℚ) (h : n ≤ i) :
    runScan startf closef finalv mask n fuel i start = [] := by
  cases fuel with
  | zero => rfl
  | succ fuel =>
    rw [runScan, if_neg (not_lt.mpr h)]

/-- Invariant carried by the coalescing loop: the ghost parameter so records
the start index of the currently open run (if any). -/
def ScanInv (mask : List Bool) (i : ℕ) : Option ℕ → Prop
  | none => i = 0 ∨ mask.getD (i - 1) false = false
  | some s => s < i ∧ i < mask.length ∧ (s = 0 ∨ mask.getD (s - 1) false = false) ∧
      ∀ j, s ≤ j → j < i → mask.getD j false = true

/-- Interval eventually emitted for the run that starts at index s. -/
def runEmit (startf closef : ℕ → ℚ) (finalv : ℚ) (mask : List Bool) (s : ℕ) : ℚ × ℚ :=
  (startf s,
    if s + runLength mask s = mask.length then finalv
    else closef (s + runLength mask s))

/-- Expected remaining output of the coalescing loop from state (i, so). -/
def scanExpected (startf closef : ℕ → ℚ) (finalv : ℚ) (mask : List Bool)
    (i : ℕ) (so : Option ℕ) : List (ℚ × ℚ) :=
  (so.elim [] (fun s => [runEmit startf closef finalv mask s])) ++
  (runsFrom mask i).map (fun r =>
    (startf r.1, if r.2 + 1 = mask.length then finalv else closef (r.2 + 1)))

theorem runScan_correct (startf closef : ℕ → ℚ) (finalv : ℚ) (mask : List Bool) :
    ∀ (fuel i : ℕ) (so : Option ℕ), mask.length - i ≤ fuel →
      ScanInv mask i so →
      runScan startf closef finalv mask mask.length fuel i (so.map startf) =
        scanExpected startf closef finalv mask i so := by
  intro fuel
  induction fuel with
  | zero =>
    intro i so hfuel hinv
    have hge : mask.length ≤ i := by omega
    rcases so with _ | s
    · simp only [Option.map_none', runScan, scanExpected, Option.elim,
        runsFrom_of_ge mask i hge, List.map_nil, List.nil_append]
    · exact absurd hinv.2.1 (not_lt.mpr hge)
  | succ fuel ih =>
    intro i so hfuel hinv
    by_cases hi : i < mask.length
    case neg =>
      have hge : mask.length ≤ i := not_lt.mp hi
      rcases so with _ | s
      · rw [runScan_halt _ _ _ _ _ _ _ _ hge]
        simp only [scanExpected, Option.elim, runsFrom_of_ge mask i hge,
          List.map_nil, List.nil_append]
      · exact absurd hinv.2.1 hi
    case pos =>
      rcases so with _ | s
      · -- no open run
        rcases hmi : mask.getD i false with _ | _
        · -- current entry False: nothing to do
          have hrec := ih (i + 1) none (by omega) (Or.inr (by simpa using hmi))
          simp only [Option.map_none'] at hrec ⊢
          rw [runScan]
          simp only [if_pos hi, hmi, Bool.false_eq_true, if_false]
          rw [hrec]
          have hnostart : isRunStart mask i = false := by
            unfold isRunStart
            rw [hmi]
            rfl
          simp only [scanExpected, Option.elim, runsFrom_succ mask i hi, hnostart,
            Bool.false_eq_true, if_false, List.nil_append]
        · -- current entry True: a run starts at i
          have hstart : isRunStart mask i = true := by
            unfold isRunStart
            rw [hmi]
            rcases hinv with h0 | hprev
            · subst h0; simp
            · rw [hprev]; simp
          by_cases hlast : i = mask.length - 1
          · -- the run starts at the final index: emit immediately
            have hlen1 : i + 1 = mask.length := by omega
            have hrl : runLength mask i = 1 := by
              apply runLength_stopped mask 1 i (by omega)
              · intro j hj1 hj2
                have hji : j = i := by omega
                rw [hji]
                exact hmi
              · left; omega
            rw [runScan]
            simp only [if_pos hi, hmi, Option.map_none', if_pos hlast, if_true]
            rw [runScan_halt _ _ _ _ _ _ _ _ (by omega)]
            simp only [scanExpected, Option.elim, runsFrom_succ mask i hi, hstart,
              if_true, runsFrom_of_ge mask (i + 1) (by omega), List.append_nil,
              List.singleton_append, List.map_cons, List.map_nil, hrl]
            rw [if_pos (by omega), List.nil_append]
          · -- the run continues: recurse with an open run started at i
            have hnext : ScanInv mask (i + 1) (some i) := by
              refine ⟨by omega, by omega, ?_, ?_⟩
              · rcases hinv with h0 | hprev
                · left; exact h0
                · right; exact hprev
              · intro j hj1 hj2
                have hji : j = i := by omega
                rw [hji]
                exact hmi
            have hrec := ih (i + 1) (some i) (by omega) hnext
            simp only [Option.map_some'] at hrec
            rw [runScan]
            simp only [if_pos hi, hmi, Option.map_none', if_neg hlast, if_true]
            rw [hrec]
            have hrl1 : 1 ≤ runLength mask i := runLength_pos mask i hmi hi
            have harith : i + runLength mask i - 1 + 1 = i + runLength mask i := by omega
            simp only [scanExpected, Option.elim, runsFrom_succ mask i hi, hstart,
              if_true, List.map_append, List.map_cons, List.map_nil,
              List.singleton_append, List.cons_append, List.nil_append, harith,
              runEmit]
      · -- an open run started at s
        obtain ⟨hsi, hilen, hs0, htrue⟩ := hinv
        rcases hmi : mask.getD i false with _ | _
        · -- run ends here: emit with closef i
          have hrec := ih (i + 1) none (by omega) (Or.inr (by simpa using hmi))
          simp only [Option.map_none'] at hrec
          rw [runScan]
          simp only [if_pos hi, hmi, Option.map_some', Bool.false_eq_true, if_false]
          rw [hrec]
          have hnostart : isRunStart mask i = false := by
            unfold isRunStart
            rw [hmi]
            rfl
          have hrl : runLength mask s = i - s := by
            apply runLength_stopped mask (i - s) s (by omega)
            · intro j hj1 hj2
              exact htrue j hj1 (by omega)
            · right
              have hsum : s + (i - s) = i := by omega
              rw [hsum]
              exact hmi
          simp only [scanExpected, Option.elim, runsFrom_succ mask i hi, hnostart,
            Bool.false_eq_true, if_false, List.nil_append, runEmit, hrl]
          have hsum : s + (i - s) = i := by omega
          rw [hsum, if_neg (by omega), List.singleton_append]
        · -- run continues through i
          have hprevtrue : mask.getD (i - 1) false = true :=
            htrue (i - 1) (by omega) (by omega)
          have hnostart : isRunStart mask i = false := by
            unfold isRunStart
            rw [hmi, hprevtrue]
            have hi0 : decide (i = 0) = false := by
              simp only [decide_eq_false_iff_not]
              omega
            rw [hi0]
            rfl
          by_cases hlast : i = mask.length - 1
          · -- the run reaches the final index: emit with finalv
            have hrl : runLength mask s = mask.length - s := by
              apply runLength_stopped mask (mask.length - s) s (by omega)
              · intro j hj1 hj2
                rcases lt_or_ge j i with hj | hj
                · exact htrue j hj1 hj
                · have hji : j = i := by omega
                  rw [hji]
                  exact hmi
              · left; omega
            rw [runScan]
            simp only [if_pos hi, hmi, Option.map_some', if_pos hlast, if_true]
            rw [runScan_halt _ _ _ _ _ _ _ _ (by omega)]
            simp only [scanExpected, Option.elim, runsFrom_succ mask i hi, hnostart,
              Bool.false_eq_true, if_false, runsFrom_of_ge mask (i + 1) (by omega),
              List.nil_append, List.map_nil, List.append_nil, runEmit, hrl]
            have hsum : s + (mask.length - s) = mask.length := by omega
            rw [hsum, if_pos rfl]
          · -- interior continuation
            have hnext : ScanInv mask (i + 1) (some s) := by
              refine ⟨by omega, by omega, hs0, ?_⟩
              intro j hj1 hj2
              rcases lt_or_ge j i with hj | hj
              · exact htrue j hj1 hj
              · have hji : j = i := by omega
                rw [hji]
                exact hmi
            have hrec := ih (i + 1) (some s) (by omega) hnext
            simp only [Option.map_some'] at hrec
            rw [runScan]
            simp only [if_pos hi, hmi, Option.map_some', if_neg hlast, if_true]
            rw [hrec]
            simp only [scanExpected, Option.elim, runsFrom_succ mask i hi, hnostart,
              Bool.false_eq_true, if_false, List.nil_append]

/-- Top-level form of the coalescing-loop correctness: started from index 0
with no open run and enough fuel, the loop emits one interval per maximal
run. -/
theorem runScan_runs (startf closef : ℕ → ℚ) (finalv : ℚ) (mask : List Bool)
    (fuel : ℕ) (hfuel : mask.length ≤ fuel) :
    runScan startf closef finalv mask mask.length fuel 0 none =
      (maximalRuns mask).map (fun r =>
        (startf r.1, if r.2 + 1 = mask.length then finalv else closef (r.2 + 1))) := by
  have h := runScan_correct startf closef finalv mask fuel 0 none (by omega) (Or.inl rfl)
  simpa [scanExpected, maximalRuns, Option.elim] using h

theorem runScan_runs_of_eq (startf closef : ℕ → ℚ) (finalv : ℚ) (mask : List Bool)
    (n fuel : ℕ) (hn : n = mask.length) (hfuel : mask.length ≤ fuel) :
    runScan startf closef finalv mask n fuel 0 none =
      (maximalRuns mask).map (fun r =>
        (startf r.1, if r.2 + 1 = n then finalv else closef (r.2 + 1))) := by
  subst hn
  exact runScan_runs startf closef finalv mask fuel hfuel

theorem extract_map (x fx : List ℚ) (f : ℚ → Bool) :
    extract (fx.map f) x =
      (x.zip fx).filterMap (fun p => if f p.2 then some p.1 else none) := by
  induction x generalizing fx with
  | nil => simp [extract]
  | cons a x ih =>
    cases fx with
    | nil => simp [extract]
    | cons b fx =>
      have hih := ih fx
      unfold extract at hih ⊢
      simp only [List.map_cons, List.zip_cons_cons, List.filterMap_cons]
      by_cases hb : f b <;> simp [hb, hih]

/-- C4: invert_grid on equal-length arrays returns, in value mode, exactly
the x values whose paired sample lies in the inclusive tolerance band around
the auto-sorted target range, in index order; in interval mode it returns one
closed interval per maximal run of consecutive matching samples, with lower
endpoint the x value at the first index of the run and upper endpoint the
x value at the last index of the run; in particular a run extending to the
final sample index is closed with the final x value exactly. -/
theorem invert_grid_spec (x fx : List ℚ) (y : Target) (atol : ℚ)
    (hlen : fx.length = x.length) :
    invert_grid x fx y atol false =
      Except.ok (Sum.inl ((x.zip fx).filterMap (fun p =>
        if (normalizeTarget y).1 - atol ≤ p.2 ∧ p.2 ≤ (normalizeTarget y).2 + atol
        then some p.1 else none)))
    ∧ invert_grid x fx y atol true =
      Except.ok (Sum.inr
        ((maximalRuns (gridMask fx (normalizeTarget y).1 (normalizeTarget y).2 atol)).map
          (fun r => (x.getD r.1 0, x.getD r.2 0)))) := by
  have hmasklen : (gridMask fx (normalizeTarget y).1 (normalizeTarget y).2 atol).length
      = x.length := by
    simp [gridMask, hlen]
  constructor
  · unfold invert_grid
    rw [if_neg (fun hc => hc hlen)]
    simp only [Bool.false_eq_true, if_false, Except.ok.injEq, Sum.inl.injEq]
    rw [gridMask, extract_map]
    have hfun : (fun p : ℚ × ℚ =>
        if (decide ((normalizeTarget y).1 - atol ≤ p.2)
            && decide (p.2 ≤ (normalizeTarget y).2 + atol)) = true
        then some p.1 else none) =
        (fun p : ℚ × ℚ =>
          if (normalizeTarget y).1 - atol ≤ p.2 ∧ p.2 ≤ (normalizeTarget y).2 + atol
          then some p.1 else none) := by
      funext p
      by_cases hA : (normalizeTarget y).1 - atol ≤ p.2 <;>
        by_cases hB : p.2 ≤ (normalizeTarget y).2 + atol <;>
        simp [hA, hB]
    rw [hfun]
  · unfold invert_grid
    rw [if_neg (fun hc => hc hlen)]
    simp only [if_true, Except.ok.injEq, Sum.inr.injEq]
    rw [runScan_runs_of_eq _ _ _ _ _ _ hmasklen.symm (le_of_eq hmasklen)]
    have hpt : ∀ r : ℕ × ℕ,
        ((x.getD r.1 0 : ℚ),
          if r.2 + 1 = x.length then x.getD (x.length - 1) 0 else x.getD (r.2 + 1 - 1) 0)
        = (x.getD r.1 0, x.getD r.2 0) := by
      intro r
      by_cases h : r.2 + 1 = x.length
      · have he : x.length - 1 = r.2 := by omega
        rw [if_pos h, he]
      · have he : r.2 + 1 - 1 = r.2 := by omega
        rw [if_neg h, he]
    exact List.map_congr_left (fun r _ => hpt r)

/-- Witness for C4 at a concrete grid. -/
theorem invert_grid_spec_witness :
    invert_grid [0, 1, 2, 3] [0, 1, 2, 3] (Target.range 1 2) 0 true =
      Except.ok (Sum.inr [((1 : ℚ), 2)]) := by
  have h := (invert_grid_spec [0, 1, 2, 3] [0, 1, 2, 3] (Target.range 1 2) 0 rfl).2
  have hnorm : normalizeTarget (Target.range 1 2) = (1, 2) := by norm_num [normalizeTarget]
  rw [h, hnorm]
  have hmask : gridMask [0, 1, 2, 3] 1 2 0 = [false, true, true, false] := by
    norm_num [gridMask]
  rw [hmask]
  have hruns : maximalRuns [false, true, true, false] = [(1, 2)] := by decide
  rw [hruns]
  norm_num [List.getD]

/-- C10: invert_grid applied to empty input arrays raises no error and
returns an empty result in both modes, for every target and tolerance. -/
theorem invert_grid_empty (y : Target) (atol : ℚ) :
    invert_grid [] [] y atol false = Except.ok (Sum.inl [])
    ∧ invert_grid [] [] y atol true = Except.ok (Sum.inr []) :=
  ⟨rfl, rfl⟩

/-- C5: intersection_of_two_intervals sorts each input pair ascending and then
returns the empty list exactly when the sorted intervals are disjoint
(max of the lower limits greater than min of the upper limits); otherwise it
returns the two-element overlap.  Boundary-touching intervals such as
[0, 0.5] and [0.5, 1.0] yield the degenerate [0.5, 0.5], not the empty
list. -/
theorem intersection_of_two_intervals_spec :
    (∀ i1 i2 : ℚ × ℚ,
      intersection_of_two_intervals i1 i2 =
        if min (max i1.1 i1.2) (max i2.1 i2.2) < max (min i1.1 i1.2) (min i2.1 i2.2)
        then []
        else [max (min i1.1 i1.2) (min i2.1 i2.2), min (max i1.1 i1.2) (max i2.1 i2.2)])
    ∧ intersection_of_two_intervals (0, 1/2) (1/2, 1) = [1/2, 1/2]
    ∧ intersection_of_two_intervals (0, 1/2) (3/5, 1) = [] := by
  refine ⟨fun i1 i2 => intersection_pair_eq i1 i2, ?_, ?_⟩
  · norm_num [intersection_of_two_intervals, intersectionSortedCase, sortPair]
  · norm_num [intersection_of_two_intervals, intersectionSortedCase, sortPair]

theorem getD_set_ne {v d : Bool} (ms : List Bool) (i j : ℕ) (h : i ≠ j) :
    (ms.set i v).getD j d = ms.getD j d := by
  rcases lt_or_ge j ms.length with hj | hj
  · rw [List.getD_eq_getElem _ _ (by simpa using hj), List.getD_eq_getElem _ _ hj]
    exact List.getElem_set_ne h _
  · rw [List.getD_eq_default _ _ (by simpa using hj), List.getD_eq_default _ _ hj]

theorem take_set_succ {α : Type} (v : α) :
    ∀ (ms : List α) (i : ℕ), i < ms.length →
      (ms.set i v).take (i + 1) = ms.take i ++ [v] := by
  intro ms
  induction ms with
  | nil => intro i hi; simp at hi
  | cons b ms ih =>
    intro i hi
    cases i with
    | zero => rfl
    | succ i =>
      simp only [List.set_cons_succ, List.take_succ_cons, List.length_cons] at *
      rw [ih i (by omega)]
      rfl

theorem take_succ_getD {α : Type} (d : α) :
    ∀ (ms : List α) (i : ℕ), i < ms.length →
      ms.take (i + 1) = ms.take i ++ [ms.getD i d] := by
  intro ms
  induction ms with
  | nil => intro i hi; simp at hi
  | cons b ms ih =>
    intro i hi
    cases i with
    | zero => rfl
    | succ i =>
      simp only [List.take_succ_cons, List.length_cons, List.getD_cons_succ] at *
      rw [ih i (by omega)]
      rfl

theorem getD_replicate_false (n j : ℕ) :
    (List.replicate n false).getD j false = false := by
  rcases lt_or_ge j n with hj | hj
  · rw [List.getD_eq_getElem _ _ (by simpa using hj)]
    simp
  · exact List.getD_eq_default _ _ (by simpa using hj)

theorem findDeltaLoop_aux (p : ℚ → Bool) (deltas : List ℚ) :
    ∀ (k i : ℕ) (acc : List ℚ) (ms : List Bool),
      ms.length = deltas.length → i + k = deltas.length →
      (∀ j, i ≤ j → ms.getD j false = false) →
      (List.range' i k).foldl
        (fun s j =>
          let d := deltas.getD j 0
          if p d then (s.1 ++ [d], s.2.set j true) else s)
        (acc, ms) =
      (acc ++ (deltas.drop i).filter p, ms.take i ++ (deltas.drop i).map p) := by
  intro k
  induction k with
  | zero =>
    intro i acc ms hms hik _
    have hi : i = deltas.length := by omega
    rw [List.range'_zero, List.foldl_nil, hi, List.drop_length]
    simp only [List.filter_nil, List.append_nil, List.map_nil]
    rw [← hms, List.take_length]
  | succ k ih =>
    intro i acc ms hms hik huntouched
    have hi : i < deltas.length := by omega
    have hdrop : deltas.drop i = deltas[i] :: deltas.drop (i + 1) :=
      List.drop_eq_getElem_cons hi
    have hgetd : deltas.getD i 0 = deltas[i] := List.getD_eq_getElem deltas 0 hi
    rw [List.range'_succ, List.foldl_cons]
    simp only [hgetd]
    rcases hp : p deltas[i] with _ | _
    · -- sample does not match
      rw [if_neg (by simp [hp])]
      rw [ih (i + 1) acc ms hms (by omega) (fun j hj => huntouched j (by omega))]
      rw [hdrop, List.filter_cons_of_neg (by simp [hp]), List.map_cons, hp]
      rw [take_succ_getD false ms i (by omega), huntouched i le_rfl]
      simp
    · -- sample matches
      rw [if_pos (by simp [hp])]
      have hset_len : (ms.set i true).length = deltas.length := by
        rw [List.length_set]; exact hms
      have hset_untouched : ∀ j, i + 1 ≤ j → (ms.set i true).getD j false = false :=
        fun j hj => by
          rw [getD_set_ne ms i j (by omega)]
          exact huntouched j (by omega)
      rw [ih (i + 1) (acc ++ [deltas[i]]) (ms.set i true) hset_len (by omega)
        hset_untouched]
      rw [hdrop, List.filter_cons_of_pos (by simp [hp]), List.map_cons, hp]
      rw [take_set_succ true ms i (by omega)]
      simp

theorem findDeltaLoop_eq (ev : ℚ → ℚ) (asymmetry : Target) (atol : ℚ)
    (deltas : List ℚ) :
    findDeltaLoop ev asymmetry atol deltas =
      (deltas.filter (deltaMatch ev asymmetry atol),
       deltas.map (deltaMatch ev asymmetry atol)) := by
  unfold findDeltaLoop
  rw [List.range_eq_range' deltas.length]
  rw [findDeltaLoop_aux (deltaMatch ev asymmetry atol) deltas deltas.length 0 []
    (List.replicate deltas.length false) (List.length_replicate _ _) (by omega)
    (fun j _ => getD_replicate_false deltas.length j)]
  simp

theorem filter_eq_zip_map_filterMap (p : ℚ → Bool) :
    ∀ l : List ℚ,
      l.filter p =
        (l.zip (l.map p)).filterMap (fun q => if q.2 then some q.1 else none) := by
  intro l
  induction l with
  | nil => rfl
  | cons a l ih =>
    simp only [List.map_cons, List.zip_cons_cons, List.filterMap_cons]
    rcases hp : p a with _ | _
    · rw [List.filter_cons_of_neg (by simp [hp])]
      simpa using ih
    · rw [List.filter_cons_of_pos (by simp [hp])]
      simpa using ih

theorem find_delta_bf_false (ev : ℚ → ℚ) (asymmetry : Target) (atol : ℚ)
    (deltas : List ℚ) :
    find_delta_brute_force ev asymmetry atol deltas false
      = Sum.inl (findDeltaLoop ev asymmetry atol deltas) := rfl

theorem find_delta_bf_true (ev : ℚ → ℚ) (asymmetry : Target) (atol : ℚ)
    (deltas : List ℚ) :
    find_delta_brute_force ev asymmetry atol deltas true
      = Sum.inr (runScan (fun i => deltas.getD i 0) (fun i => deltas.getD i 0)
          (deltas.getD (deltas.length - 1) 0)
          (findDeltaLoop ev asymmetry atol deltas).2 deltas.length deltas.length
          0 none) := rfl

/-- C9: with return_intervals false, find_delta_brute_force returns a pair
whose boolean match mask has exactly one entry per grid sample (n_delta
entries) and whose matching-parameter list is exactly the sub-sequence of the
sampled grid at the True mask positions, in grid order. -/
theorem find_delta_consistency (ev : ℚ → ℚ) (asymmetry : Target) (atol : ℚ)
    (deltas : List ℚ) :
    ∃ res m, find_delta_brute_force ev asymmetry atol deltas false = Sum.inl (res, m)
      ∧ m.length = deltas.length
      ∧ res = (deltas.zip m).filterMap (fun q => if q.2 then some q.1 else none) := by
  refine ⟨deltas.filter (deltaMatch ev asymmetry atol),
    deltas.map (deltaMatch ev asymmetry atol), ?_, List.length_map _ _, ?_⟩
  · rw [find_delta_bf_false, findDeltaLoop_eq]
  · exact filter_eq_zip_map_filterMap (deltaMatch ev asymmetry atol) deltas

/-- C1 (amended): in interval mode find_delta_brute_force emits one interval
per maximal run of consecutive matching samples, in order; the lower endpoint
is the parameter value at the first index of the run; the upper endpoint is
the parameter value at the first non-matching index after the run when the
run ends strictly before the final sample index, and the parameter value at
the final sample index when the run reaches it. -/
theorem find_delta_intervals_eq (ev : ℚ → ℚ) (asymmetry : Target) (atol : ℚ)
    (deltas : List ℚ) :
    find_delta_brute_force ev asymmetry atol deltas true =
      Sum.inr ((maximalRuns (deltas.map (deltaMatch ev asymmetry atol))).map
        (fun r => (deltas.getD r.1 0,
          if r.2 + 1 = deltas.length then deltas.getD (deltas.length - 1) 0
          else deltas.getD (r.2 + 1) 0))) := by
  rw [find_delta_bf_true]
  have hsnd : (findDeltaLoop ev asymmetry atol deltas).2
      = deltas.map (deltaMatch ev asymmetry atol) := by
    rw [findDeltaLoop_eq]
  have hmlen : (deltas.map (deltaMatch ev asymmetry atol)).length = deltas.length :=
    List.length_map _ _
  rw [hsnd, runScan_runs_of_eq _ _ _ _ _ _ hmlen.symm (le_of_eq hmlen)]

/-- Counterexample for C1 as stated: with the identity observable, target
range [0, 0] and atol 1/10 on the grid [0, 1, 2], only the first sample
matches; the claim predicts the degenerate interval [0, 0] (upper endpoint at
the last matching sample, as in invert_grid), but the code closes the run
with the first non-matching sample and returns [0, 1]. -/
theorem find_delta_intervals_counterexample :
    find_delta_brute_force (fun d => d) (Target.range 0 0) (1/10) [0, 1, 2] true
      = Sum.inr [((0 : ℚ), 1)]
    ∧ [((0 : ℚ), (1 : ℚ))] ≠ [((0 : ℚ), (0 : ℚ))] := by
  constructor
  · have hm : findDeltaLoop (fun d => d) (Target.range 0 0) (1/10) [0, 1, 2]
        = ([0], [true, false, false]) := by
      rw [findDeltaLoop_eq]
      norm_num [deltaMatch]
    rw [find_delta_bf_true]
    have hsnd : (findDeltaLoop (fun d => d) (Target.range 0 0) (1/10) [0, 1, 2]).2
        = [true, false, false] := by rw [hm]
    rw [hsnd]
    rfl
  · intro hcontra
    have h1 := List.head_eq_of_cons_eq hcontra
    have h2 : (1 : ℚ) = 0 := congrArg Prod.snd h1
    norm_num at h2

/-- C3: the boundary of the scalar tolerance band is excluded by
find_delta_brute_force.  With constant observable 1/2, scalar target 2/5 and
atol 1/10 the sample lies exactly on the boundary: it satisfies the inclusive
band 2/5 - 1/10 ≤ 1/2 ≤ 2/5 + 1/10 required by the claim and by the
function docstring (|asymmetry - A| ≤ t), but the strict comparison
|A - asymmetry| < atol rejects it, so no match is recorded. -/
theorem find_delta_scalar_boundary :
    find_delta_brute_force (fun _ => 1/2) (Target.scalar (2/5)) (1/10) [0] false
      = Sum.inl ([], [false])
    ∧ ((2 : ℚ)/5 - 1/10 ≤ 1/2 ∧ (1 : ℚ)/2 ≤ 2/5 + 1/10) := by
  constructor
  · have hd : deltaMatch (fun _ => (1 : ℚ)/2) (Target.scalar (2/5)) (1/10) 0 = false := by
      unfold deltaMatch
      simp only [decide_eq_false_iff_not]
      rw [show (1 : ℚ)/2 - 2/5 = 1/10 by norm_num, abs_of_pos (by norm_num)]
      norm_num
    have hm : findDeltaLoop (fun _ => (1 : ℚ)/2) (Target.scalar (2/5)) (1/10) [0]
        = ([], [false]) := by
      rw [findDeltaLoop_eq, List.map_cons, List.map_nil, hd,
        List.filter_cons_of_neg (fun hcontra => Bool.false_ne_true (hd.symm.trans hcontra)),
        List.filter_nil]
    rw [find_delta_bf_false, hm]
  · norm_num

theorem filter_range'_slide (pred : ℕ → Bool) (N : ℕ) :
    ∀ (d a : ℕ), a + d ≤ N → (∀ i, a ≤ i → i < a + d → pred i = false) →
      (List.range' a (N - a)).filter pred
        = (List.range' (a + d) (N - (a + d))).filter pred := by
  intro d
  induction d with
  | zero => intro a _ _; rw [Nat.add_zero]
  | succ d ih =>
    intro a hle hfalse
    have hN : N - a = (N - (a + 1)) + 1 := by omega
    rw [hN, List.range'_succ,
      List.filter_cons_of_neg (by simp [hfalse a le_rfl (by omega)])]
    have hrec := ih (a + 1) (by omega) (fun i h1 h2 => hfalse i (by omega) (by omega))
    have harr : a + 1 + d = a + (d + 1) := by omega
    rw [harr] at hrec
    exact hrec

theorem find?_range'_slide (pred : ℕ → Bool) (N : ℕ) :
    ∀ (d a : ℕ), a + d ≤ N → (∀ i, a ≤ i → i < a + d → pred i = false) →
      (List.range' a (N - a)).find? pred
        = (List.range' (a + d) (N - (a + d))).find? pred := by
  intro d
  induction d with
  | zero => intro a _ _; rw [Nat.add_zero]
  | succ d ih =>
    intro a hle hfalse
    have hN : N - a = (N - (a + 1)) + 1 := by omega
    rw [hN, List.range'_succ,
      List.find?_cons_of_neg _ (by simp [hfalse a le_rfl (by omega)])]
    have hrec := ih (a + 1) (by omega) (fun i h1 h2 => hfalse i (by omega) (by omega))
    have harr : a + 1 + d = a + (d + 1) := by omega
    rw [harr] at hrec
    exact hrec

theorem extremaPred_not_first (y : List ℚ) (i : ℕ) (h0 : i ≠ 0)
    (heq : y.getD (i - 1) 0 = y.getD i 0) : extremaPred y i = false := by
  have hfirst : isFirstOfPlateau y i = false := by
    unfold isFirstOfPlateau
    simp only [decide_eq_false_iff_not]
    push_neg
    exact ⟨h0, heq⟩
  unfold extremaPred
  rw [hfirst, Bool.false_and]

theorem isExtremum_no_next (y : List ℚ) (i : ℕ)
    (h : ∀ j, i + 1 ≤ j → j < y.length → y.getD j 0 = y.getD i 0) :
    isExtremum y i = false := by
  have hnone : nextDiff y i = none := by
    unfold nextDiff
    rw [List.find?_eq_none]
    intro j hj
    rw [List.mem_range'_1] at hj
    have hjlen : j < y.length := by omega
    simp only [decide_eq_true_eq, Decidable.not_not]
    exact h j hj.1 hjlen
  cases hprev : prevDiff y i with
  | none => unfold isExtremum; rw [hprev, hnone]
  | some p => unfold isExtremum; rw [hprev, hnone]

theorem isExtremum_no_prev (y : List ℚ) (i : ℕ)
    (h : ∀ j, j < i → y.getD j 0 = y.getD i 0) :
    isExtremum y i = false := by
  have hnone : prevDiff y i = none := by
    unfold prevDiff
    rw [List.find?_eq_none]
    intro j hj
    rw [List.mem_reverse, List.mem_range] at hj
    simp only [decide_eq_true_eq, Decidable.not_not]
    exact h j hj
  cases hnext : nextDiff y i with
  | none => unfold isExtremum; rw [hnone, hnext]
  | some q => unfold isExtremum; rw [hnone, hnext]

theorem prevDiff_of_ne (y : List ℚ) (c : ℕ)
    (hne : y.getD c 0 ≠ y.getD (c + 1) 0) :
    prevDiff y (c + 1) = some c := by
  unfold prevDiff
  rw [List.range_succ, List.reverse_append, List.reverse_singleton,
    List.singleton_append]
  exact List.find?_cons_of_pos (p := fun j => decide (y.getD j 0 ≠ y.getD (c + 1) 0)) _
    (decide_eq_true hne)

theorem nextDiff_first (y : List ℚ) (i b : ℕ) (hib : i < b) (hblen : b < y.length)
    (hmid : ∀ j, i + 1 ≤ j → j < b → y.getD j 0 = y.getD i 0)
    (hne : y.getD b 0 ≠ y.getD i 0) :
    nextDiff y i = some b := by
  unfold nextDiff
  have hd := find?_range'_slide (fun j => decide (y.getD j 0 ≠ y.getD i 0)) y.length
    (b - (i + 1)) (i + 1) (by omega)
    (fun j hj1 hj2 => by
      simp only [decide_eq_false_iff_not, Decidable.not_not]
      exact hmid j hj1 (by omega))
  have harr : i + 1 + (b - (i + 1)) = b := by omega
  rw [harr] at hd
  rw [hd]
  have hbs : y.length - b = (y.length - (b + 1)) + 1 := by omega
  rw [hbs, List.range'_succ]
  exact List.find?_cons_of_pos (p := fun j => decide (y.getD j 0 ≠ y.getD i 0)) _
    (decide_eq_true hne)

theorem extremaSpec_tail_empty (y : List ℚ) (cur nxt : ℕ) (h2 : cur < nxt)
    (hlen : y.length ≤ nxt)
    (hI3 : ∀ j, cur ≤ j → j < nxt → y.getD j 0 = y.getD cur 0) :
    (List.range' cur (y.length - cur)).filter (extremaPred y) = [] := by
  rw [List.filter_eq_nil_iff]
  intro a ha
  rw [List.mem_range'_1] at ha
  have halen : a < y.length := by omega
  by_cases hac : a = cur
  · subst hac
    have hext : isExtremum y a = false :=
      isExtremum_no_next y a (fun j hj1 hj2 => hI3 j (by omega) (by omega))
    simp [extremaPred, hext]
  · have h0 : a ≠ 0 := by omega
    have heq : y.getD (a - 1) 0 = y.getD a 0 := by
      have e1 : y.getD (a - 1) 0 = y.getD cur 0 := hI3 (a - 1) (by omega) (by omega)
      have e2 : y.getD a 0 = y.getD cur 0 := hI3 a (by omega) (by omega)
      rw [e1, e2]
    simp [extremaPred_not_first y a h0 heq]

theorem extremaAux_correct (y : List ℚ) :
    ∀ (fuel last cur nxt : ℕ), y.length - nxt ≤ fuel →
      last < cur → cur < nxt →
      (∀ j, last ≤ j → j < cur → y.getD j 0 = y.getD last 0) →
      (∀ j, cur ≤ j → j < nxt → y.getD j 0 = y.getD cur 0) →
      (y.getD last 0 ≠ y.getD cur 0 ∨ last = 0) →
      extremaAux y fuel last cur nxt
        = (List.range' cur (y.length - cur)).filter (extremaPred y) := by
  intro fuel
  induction fuel with
  | zero =>
    intro last cur nxt hfuel h1 h2 hI2 hI3 hI4
    rw [extremaSpec_tail_empty y cur nxt h2 (by omega) hI3]
    rfl
  | succ fuel ih =>
    intro last cur nxt hfuel h1 h2 hI2 hI3 hI4
    by_cases hnl : nxt < y.length
    case neg =>
      rw [extremaAux, if_neg hnl,
        extremaSpec_tail_empty y cur nxt h2 (by omega) hI3]
    case pos =>
      rw [extremaAux, if_pos hnl]
      by_cases heq : y.getD cur 0 = y.getD nxt 0
      · rw [if_pos heq]
        exact ih last cur (nxt + 1) (by omega) h1 (by omega) hI2
          (fun j hj1 hj2 => by
            rcases lt_or_ge j nxt with hj | hj
            · exact hI3 j hj1 hj
            · have hjn : j = nxt := by omega
              rw [hjn]
              exact heq.symm)
          hI4
      · rw [if_neg heq]
        have hrest := ih cur nxt (nxt + 1) (by omega) h2 (by omega)
          (fun j hj1 hj2 => hI3 j hj1 hj2)
          (fun j hj1 hj2 => by
            have hjn : j = nxt := by omega
            rw [hjn])
          (Or.inl heq)
        have hcurlen : cur < y.length := by omega
        have hsplit : y.length - cur = (y.length - (cur + 1)) + 1 := by omega
        have hslide : (List.range' (cur + 1) (y.length - (cur + 1))).filter (extremaPred y)
            = (List.range' nxt (y.length - nxt)).filter (extremaPred y) := by
          have hd := filter_range'_slide (extremaPred y) y.length (nxt - (cur + 1)) (cur + 1)
            (by omega)
            (fun i hi1 hi2 => by
              apply extremaPred_not_first y i (by omega)
              have e1 : y.getD (i - 1) 0 = y.getD cur 0 := hI3 (i - 1) (by omega) (by omega)
              have e2 : y.getD i 0 = y.getD cur 0 := hI3 i (by omega) (by omega)
              rw [e1, e2])
          have harr : cur + 1 + (nxt - (cur + 1)) = nxt := by omega
          rw [harr] at hd
          exact hd
        rw [hsplit, List.range'_succ]
        by_cases hlc : y.getD last 0 = y.getD cur 0
        · -- equal to the left neighbour value: the plateau of cur reaches index 0
          have hlast0 : last = 0 := by
            rcases hI4 with hne | h0
            · exact absurd hlc hne
            · exact h0
          have hpredf : extremaPred y cur = false := by
            have hext : isExtremum y cur = false := by
              apply isExtremum_no_prev y cur
              intro j hj
              have hjv : y.getD j 0 = y.getD last 0 := hI2 j (by omega) hj
              rw [hjv, hlc]
            simp [extremaPred, hext]
          rw [if_neg (by rw [hlc]; simp)]
          rw [List.filter_cons_of_neg (by simp [hpredf]), hrest, hslide]
        · -- cur starts a new plateau: both differing neighbours exist
          obtain ⟨c, hc⟩ : ∃ c, cur = c + 1 := ⟨cur - 1, by omega⟩
          subst hc
          have hprev_eq : y.getD c 0 = y.getD last 0 := hI2 c (by omega) (by omega)
          have hprev : prevDiff y (c + 1) = some c :=
            prevDiff_of_ne y c (by rw [hprev_eq]; exact hlc)
          have hnext : nextDiff y (c + 1) = some nxt :=
            nextDiff_first y (c + 1) nxt h2 hnl
              (fun j hj1 hj2 => hI3 j (by omega) hj2)
              (fun hcc => heq hcc.symm)
          have hext : isExtremum y (c + 1)
              = decide ((y.getD (c + 1) 0 > y.getD last 0 ∧ y.getD (c + 1) 0 > y.getD nxt 0)
                ∨ (y.getD (c + 1) 0 < y.getD last 0 ∧ y.getD (c + 1) 0 < y.getD nxt 0)) := by
            unfold isExtremum
            rw [hprev, hnext]
            simp only [hprev_eq]
          have hfirst : isFirstOfPlateau y (c + 1) = true := by
            unfold isFirstOfPlateau
            simp only [decide_eq_true_eq]
            right
            simp only [Nat.add_sub_cancel]
            rw [hprev_eq]
            exact hlc
          by_cases hcond : (y.getD (c + 1) 0 > y.getD last 0 ∧ y.getD (c + 1) 0 > y.getD nxt 0)
              ∨ (y.getD (c + 1) 0 < y.getD last 0 ∧ y.getD (c + 1) 0 < y.getD nxt 0)
          · rw [if_pos hcond]
            have hpred : extremaPred y (c + 1) = true := by
              unfold extremaPred
              rw [hfirst, hext, Bool.true_and]
              exact decide_eq_true hcond
            rw [List.filter_cons_of_pos (by simp [hpred]), hrest, hslide]
          · rw [if_neg hcond]
            have hpred : extremaPred y (c + 1) = false := by
              unfold extremaPred
              rw [hfirst, hext, Bool.true_and]
              exact decide_eq_false hcond
            rw [List.filter_cons_of_neg (by simp [hpred]), hrest, hslide]

theorem find_indices_extrema_main (y : List ℚ) :
    find_indices_of_extrema y = extremaSpec y := by
  unfold find_indices_of_extrema extremaSpec
  by_cases h0 : y.length = 0
  · rw [h0]
    rfl
  · have hmain := extremaAux_correct y y.length 0 1 2 (by omega) (by omega) (by omega)
      (fun j hj1 hj2 => by
        have hj : j = 0 := by omega
        rw [hj])
      (fun j hj1 hj2 => by
        have hj : j = 1 := by omega
        rw [hj])
      (Or.inr rfl)
    rw [hmain, List.range_eq_range' y.length]
    have hslide := filter_range'_slide (extremaPred y) y.length 1 0 (by omega)
      (fun i hi1 hi2 => by
        have hi : i = 0 := by omega
        rw [hi]
        have hext : isExtremum y 0 = false :=
          isExtremum_no_prev y 0 (fun j hj => absurd hj (Nat.not_lt_zero j))
        simp [extremaPred, hext])
    simp only [Nat.sub_zero, Nat.zero_add] at hslide
    rw [hslide]

/-- C6: find_indices_of_extrema returns, in increasing order, exactly the
interior candidate indices (one per plateau of equal consecutive values, at
its first index) where the value is strictly greater than both the nearest
differing value before and the nearest differing value after, or strictly
less than both; a constant tail yields no extrema (no differing value after),
every strictly increasing sequence yields the empty list, sequences with
fewer than three entries yield the empty list, and the example
[0, 1, 2, 1, 0, 1, -2] yields [2, 4, 5]. -/
theorem find_indices_of_extrema_spec :
    (∀ y : List ℚ, find_indices_of_extrema y = extremaSpec y)
    ∧ (∀ y : List ℚ, y.length < 3 → find_indices_of_extrema y = [])
    ∧ (∀ y : List ℚ, List.Chain' (· < ·) y → find_indices_of_extrema y = [])
    ∧ find_indices_of_extrema [0, 1, 2, 1, 0, 1, -2] = [2, 4, 5] := by
  refine ⟨find_indices_extrema_main, ?_, ?_, ?_⟩
  · intro y hy
    unfold find_indices_of_extrema
    cases hl : y.length with
    | zero => rfl
    | succ n =>
      rw [extremaAux, if_neg (by omega)]
  · intro y hchain
    rw [find_indices_extrema_main y]
    unfold extremaSpec
    rw [List.filter_eq_nil_iff]
    intro i hi
    rw [List.mem_range] at hi
    suffices hext : isExtremum y i = false by simp [extremaPred, hext]
    rcases Nat.eq_zero_or_pos i with h0 | hpos
    · subst h0
      exact isExtremum_no_prev y 0 (fun j hj => absurd hj (Nat.not_lt_zero j))
    · rcases lt_or_ge (i + 1) y.length with hi1 | hi1
      · obtain ⟨c, hc⟩ : ∃ c, i = c + 1 := ⟨i - 1, by omega⟩
        subst hc
        have hg1 : y.getD c 0 < y.getD (c + 1) 0 := by
          have hcc := List.chain'_iff_get.mp hchain c (by omega)
          rw [List.getD_eq_getElem y 0 (by omega), List.getD_eq_getElem y 0 (by omega)]
          exact hcc
        have hg2 : y.getD (c + 1) 0 < y.getD (c + 2) 0 := by
          have hcc := List.chain'_iff_get.mp hchain (c + 1) (by omega)
          rw [List.getD_eq_getElem y 0 (by omega), List.getD_eq_getElem y 0 (by omega)]
          exact hcc
        have hprev : prevDiff y (c + 1) = some c :=
          prevDiff_of_ne y c (ne_of_lt hg1)
        have hnext : nextDiff y (c + 1) = some (c + 2) :=
          nextDiff_first y (c + 1) (c + 2) (by omega) hi1
            (fun j hj1 hj2 => absurd hj2 (by omega))
            (ne_of_gt hg2)
        unfold isExtremum
        rw [hprev, hnext]
        simp only [decide_eq_false_iff_not]
        rintro (⟨ha, hb⟩ | ⟨ha, hb⟩)
        · exact absurd hb (not_lt.mpr (le_of_lt hg2))
        · exact absurd ha (not_lt.mpr (le_of_lt hg1))
      · exact isExtremum_no_next y i (fun j hj1 hj2 => absurd hj2 (by omega))
  · norm_num [find_indices_of_extrema, extremaAux, List.getD]


/-- Witness for C6 at a concrete strictly increasing sequence. -/
theorem find_indices_of_extrema_spec_witness :
    find_indices_of_extrema [(5 : ℚ), 6, 7, 8] = [] :=
  find_indices_of_extrema_spec.2.2.1 [5, 6, 7, 8] (by norm_num)

theorem filterMap_eq_flatten_toList {α β : Type} (h : α → Option β) (l : List α) :
    l.filterMap h = (l.map (fun a => (h a).toList)).flatten := by
  induction l with
  | nil => rfl
  | cons a l ih =>
    rw [List.filterMap_cons, List.map_cons, List.flatten_cons]
    cases h a with
    | none => simpa using ih
    | some b => simpa using ih

/-- C7: the piecewise inversion query never surfaces a per-segment
out-of-domain error: the result of calling a PiecewiseInterpolation is
always the plain list of outputs of the pieces that succeed, in order; when
the pieces are range-guarded interpolants, exactly the segments whose
observed range contains the query contribute, and the others silently
contribute nothing. -/
theorem piecewise_call_spec :
    (∀ (fs : List (ℚ → Except String ℚ)) (x : ℚ),
      PiecewiseInterpolation.call ⟨fs⟩ x
        = fs.filterMap (fun f => (f x).toOption))
    ∧ (∀ (segs : List ((ℚ × ℚ) × (ℚ → ℚ))) (y0 : ℚ),
      PiecewiseInterpolation.call
          ⟨segs.map (fun s => boundedInterp s.1.1 s.1.2 s.2)⟩ y0
        = (segs.filter (fun s => decide (s.1.1 ≤ y0 ∧ y0 ≤ s.1.2))).map
            (fun s => s.2 y0)) := by
  have hcall : ∀ (fs : List (ℚ → Except String ℚ)) (x : ℚ),
      PiecewiseInterpolation.call ⟨fs⟩ x
        = fs.filterMap (fun f => (f x).toOption) := by
    intro fs x
    unfold PiecewiseInterpolation.call
    have hstep : ∀ (acc : List ℚ) (inter : ℚ → Except String ℚ),
        (fun acc inter =>
          match inter x with
          | Except.ok v => acc ++ [v]
          | Except.error _ => acc) acc inter
        = acc ++ ((inter x).toOption).toList := by
      intro acc inter
      cases hit : inter x with
      | ok v => simp [hit, Except.toOption]
      | error e => simp [hit, Except.toOption]
    rw [foldl_step_flatten _ _ hstep fs [], List.nil_append,
      filterMap_eq_flatten_toList]
  refine ⟨hcall, ?_⟩
  intro segs y0
  rw [hcall]
  induction segs with
  | nil => rfl
  | cons s segs ih =>
    rw [List.map_cons]
    by_cases hs : s.1.1 ≤ y0 ∧ y0 ≤ s.1.2
    · have hhead : ((boundedInterp s.1.1 s.1.2 s.2) y0).toOption = some (s.2 y0) := by
        simp only [boundedInterp, if_pos hs, Except.toOption]
      rw [List.filter_cons_of_pos (by simpa using hs), List.map_cons]
      simp only [List.filterMap_cons, hhead]
      rw [ih]
    · have hhead : ((boundedInterp s.1.1 s.1.2 s.2) y0).toOption = none := by
        simp only [boundedInterp, if_neg hs, Except.toOption]
      rw [List.filter_cons_of_neg (by simpa using hs)]
      simp only [List.filterMap_cons, hhead]
      rw [ih]

/-- Counterexample for C2 as stated: a three-point curve with no extrema
requested with cubic interpolation.  interpolate_and_invert passes the
requested kind straight to the interpolator (line 167): no fallback to
linear happens, no warning is emitted (the warning list is empty), and an
error is raised instead. -/
theorem interpolate_and_invert_counterexample :
    interpolate_and_invert [0, 1, 2] [0, 1, 2] InterpKind.cubic
      = ([], Except.error
          "x and y arrays must have enough entries for this kind of interpolation.") := by
  have hext : find_indices_of_extrema [(0 : ℚ), 1, 2] = [] := by
    norm_num [find_indices_of_extrema, extremaAux, List.getD]
  unfold interpolate_and_invert
  rw [hext]
  rfl

theorem minPoints_le_four (kind : InterpKind) : minPoints kind ≤ 4 := by
  cases kind <;> decide

theorem buildSegments_ok (kind : InterpKind) :
    ∀ segs : List (List ℚ × List ℚ), (∀ s ∈ segs, 2 ≤ s.1.length) →
      ∃ ws fs, buildSegments kind segs = (ws, Except.ok fs) := by
  intro segs
  induction segs with
  | nil => intro _; exact ⟨[], [], rfl⟩
  | cons seg rest ih =>
    intro hlen
    obtain ⟨ws, fs, hrest⟩ := ih (fun s hs => hlen s (List.mem_cons_of_mem seg hs))
    have hseg : 2 ≤ seg.1.length := hlen seg (List.mem_cons_self seg rest)
    unfold buildSegments
    by_cases h4 : seg.1.length < 4
    · rw [safe_interp1d, if_pos h4]
      rw [interp1d, if_neg (by
        have hm : minPoints InterpKind.linear = 2 := rfl
        omega)]
      rw [hrest]
      exact ⟨_, _, rfl⟩
    · rw [safe_interp1d, if_neg h4]
      rw [interp1d, if_neg (by have := minPoints_le_four kind; omega)]
      rw [hrest]
      exact ⟨_, _, rfl⟩

theorem isExtremum_bounds (y : List ℚ) (e : ℕ) (h : isExtremum y e = true) :
    1 ≤ e ∧ e + 2 ≤ y.length := by
  unfold isExtremum at h
  cases hp : prevDiff y e with
  | none =>
    rw [hp] at h
    cases hq : nextDiff y e with
    | none => rw [hq] at h; exact absurd h (by simp)
    | some q => rw [hq] at h; exact absurd h (by simp)
  | some p =>
    cases hq : nextDiff y e with
    | none => rw [hp, hq] at h; exact absurd h (by simp)
    | some q =>
      have hpmem : p ∈ (List.range e).reverse := List.mem_of_find?_eq_some hp
      rw [List.mem_reverse, List.mem_range] at hpmem
      have hqmem : q ∈ List.range' (e + 1) (y.length - (e + 1)) :=
        List.mem_of_find?_eq_some hq
      rw [List.mem_range'_1] at hqmem
      omega

theorem chain'_zip_tail {α : Type} (R : α → α → Prop) :
    ∀ (l : List α), List.Chain' R l → ∀ p ∈ l.zip l.tail, R p.1 p.2 := by
  intro l
  induction l with
  | nil => intro _ p hp; simp at hp
  | cons a l ih =>
    intro hch p hp
    cases l with
    | nil => simp at hp
    | cons b t =>
      rw [List.chain'_cons] at hch
      simp only [List.tail_cons, List.zip_cons_cons, List.mem_cons] at hp
      rcases hp with hp | hp
      · subst hp
        exact hch.1
      · exact ih hch.2 p (by simpa using hp)

/-- C2 (amended): safe_interp1d replaces the requested kind by linear and
emits the fallback warning exactly when given fewer than 4 points, and
passes the requested kind through silently otherwise; in the branch of
interpolate_and_invert with at least one extremum every segment goes through
safe_interp1d and construction always succeeds (segments have at least two
points); but in the single-segment (no extrema) branch the requested kind is
passed directly to the interpolator with no fallback and no warning, and the
interpolator error surfaces when the curve is too short for the kind. -/
theorem interpolate_and_invert_fallback_spec :
    (∀ (x y : List ℚ) (kind : InterpKind), x.length < 4 →
      safe_interp1d x y kind =
        (["Interpolation of less than 4 points requested. Falling back to linear interpolation."],
          interp1d x y InterpKind.linear))
    ∧ (∀ (x y : List ℚ) (kind : InterpKind), 4 ≤ x.length →
      safe_interp1d x y kind = ([], interp1d x y kind))
    ∧ (∀ (x y : List ℚ) (kind : InterpKind), y.length = x.length →
      find_indices_of_extrema y = [] →
      interpolate_and_invert x y kind = ([], (interp1d y x kind).map (fun f => [f])))
    ∧ (∀ (x y : List ℚ) (kind : InterpKind), y.length = x.length →
      ∀ (e0 : ℕ) (tl : List ℕ), find_indices_of_extrema y = e0 :: tl →
      ∃ ws fs, interpolate_and_invert x y kind = (ws, Except.ok fs)) := by
  refine ⟨?_, ?_, ?_, ?_⟩
  · intro x y kind h4
    rw [safe_interp1d, if_pos h4]
  · intro x y kind h4
    rw [safe_interp1d, if_neg (not_lt.mpr h4)]
  · intro x y kind hlen hext
    unfold interpolate_and_invert
    rw [if_neg (fun hc => hc hlen), hext]
  · intro x y kind hlen e0 tl hext
    have hbounds : ∀ e ∈ e0 :: tl, 1 ≤ e ∧ e + 2 ≤ y.length := by
      intro e he
      rw [← hext, find_indices_extrema_main y] at he
      unfold extremaSpec at he
      rw [List.mem_filter] at he
      have hex : isExtremum y e = true := by
        have hand := he.2
        unfold extremaPred at hand
        rw [Bool.and_eq_true] at hand
        exact hand.2
      exact isExtremum_bounds y e hex
    have hpair : (e0 :: tl).Pairwise (· < ·) := by
      rw [← hext, find_indices_extrema_main y]
      unfold extremaSpec
      exact (List.pairwise_lt_range y.length).sublist (List.filter_sublist _)
    have hzip : ∀ p ∈ (e0 :: tl).zip tl, p.1 < p.2 :=
      chain'_zip_tail (· < ·) (e0 :: tl) hpair.chain'
    have hslices : ∀ s ∈ segmentSlices y e0 tl, 2 ≤ s.length := by
      intro s hs
      unfold segmentSlices at hs
      rw [List.mem_cons] at hs
      rcases hs with hs | hs
      · subst hs
        have hb := hbounds e0 (List.mem_cons_self e0 tl)
        rw [List.length_take]
        omega
      · rw [List.mem_append] at hs
        rcases hs with hs | hs
        · rw [List.mem_map] at hs
          obtain ⟨p, hpmem, rfl⟩ := hs
          have hab := hzip p hpmem
          have hb := hbounds p.2 (List.mem_cons_of_mem e0 ((List.of_mem_zip hpmem).2))
          rw [List.length_take, List.length_drop]
          omega
        · rw [List.mem_singleton] at hs
          subst hs
          have hb := hbounds ((e0 :: tl).getLast (List.cons_ne_nil e0 tl))
            (List.getLast_mem (List.cons_ne_nil e0 tl))
          rw [List.length_drop]
          omega
    have hsame : (segmentSlices x e0 tl).length = (segmentSlices y e0 tl).length := by
      unfold segmentSlices
      simp
    unfold interpolate_and_invert
    rw [if_neg (fun hc => hc hlen), hext]
    exact buildSegments_ok kind _ (fun s hs => hslices s.1 (List.of_mem_zip hs).1)

/-- Witness for C2 (amended) at a concrete short segment with the cubic
request. -/
theorem interpolate_and_invert_fallback_spec_witness :
    safe_interp1d [(0 : ℚ), 1] [(0 : ℚ), 1] InterpKind.cubic
      = (["Interpolation of less than 4 points requested. Falling back to linear interpolation."],
          Except.ok ⟨InterpKind.linear, [0, 1], [0, 1]⟩) := by
  have h := interpolate_and_invert_fallback_spec.1 [(0 : ℚ), 1] [(0 : ℚ), 1]
    InterpKind.cubic (by norm_num)
  rw [h]
  rfl

end Alpaca
